import Mathlib

/-!
Shallow embedding of the lookls repository (src/lookls/ici.py and
src/lookls/server.py) and verification of its specification claims.

Python strings are modeled as Lean `String`/`List Char`; the JSON values the
dictionary API returns are modeled by `JsonVal` (the value kinds the code
touches: strings, arrays, objects and null); an uncaught Python exception is
modeled as `Option.none` / `Except.error`.
-/

/-- The universe of decoded JSON values the lookls code manipulates
(`orjson.loads` output as consumed by `ICIFetcher`): strings, arrays,
objects with string keys (insertion-ordered), and null. -/
inductive JsonVal where
  | null
  | s (str : String)
  | arr (items : List JsonVal)
  | obj (fields : List (String × JsonVal))

/-- Separator join, the semantics of Python `sep.join(list-of-str)`. -/
def sepJoin (sep : String) : List String → String
  | [] => ""
  | [x] => x
  | x :: xs => x ++ sep ++ sepJoin sep xs

mutual

/-- Python `str()` as invoked by `"...{}...".format(value)`: `None` renders as
`"None"`, strings render as themselves.  Containers are rendered structurally
(Python's exact repr quoting of nested strings is not reproduced; no response
field the code formats is a container in any modeled run). -/
def pyStr : JsonVal → String
  | .null => "None"
  | .s str => str
  | .arr xs => "[" ++ pyStrList xs ++ "]"
  | .obj kvs => "\x7b" ++ pyStrFields kvs ++ "\x7d"

/-- Comma-joined rendering of a JSON array's items, companion of `pyStr`. -/
def pyStrList : List JsonVal → String
  | [] => ""
  | [x] => pyStr x
  | x :: xs => pyStr x ++ ", " ++ pyStrList xs

/-- Comma-joined rendering of a JSON object's fields, companion of `pyStr`. -/
def pyStrFields : List (String × JsonVal) → String
  | [] => ""
  | [kv] => kv.1 ++ ": " ++ pyStr kv.2
  | kv :: kvs => kv.1 ++ ": " ++ pyStr kv.2 ++ ", " ++ pyStrFields kvs

end

/-- Python truthiness (`if value:`) for the modeled JSON values:
null is falsy, strings/arrays/objects are truthy iff non-empty. -/
def pyTruthy : JsonVal → Bool
  | .null => false
  | .s str => str ≠ ""
  | .arr xs => !xs.isEmpty
  | .obj kvs => !kvs.isEmpty

/-- Python `d[k]` subscript on a decoded value: `some` the stored value when
`d` is an object carrying key `k`; `none` models the KeyError (key missing)
or TypeError (`d` not a dict) the interpreter raises otherwise. -/
def dictIndex : JsonVal → String → Option JsonVal
  | .obj fields, k => (fields.find? (fun e => e.1 = k)).map (fun e => e.2)
  | _, _ => none

/-- Python `d.get(k)`: `some` of the stored value (or of null when the key is
missing) when `d` is a dict; `none` models the AttributeError raised when `d`
is not a dict. -/
def pyGet : JsonVal → String → Option JsonVal
  | .obj fields, k => some (((fields.find? (fun e => e.1 = k)).map (fun e => e.2)).getD .null)
  | _, _ => none

/-- Python `d.get(k, default)` on a dict (`parse` only applies it to its
dict argument); total, yielding `default` when the key is absent. -/
def pyGetD (d : JsonVal) (k : String) (default : JsonVal) : JsonVal :=
  match d with
  | .obj fields => ((fields.find? (fun e => e.1 = k)).map (fun e => e.2)).getD default
  | _ => default

/-- Python iteration `for x in v`: elements of an array; the 1-character
strings of a string; the keys of a dict.  `none` models the TypeError raised
on a non-iterable (null). -/
def iterElems : JsonVal → Option (List JsonVal)
  | .arr xs => some xs
  | .s str => some (str.data.map (fun c => JsonVal.s (String.mk [c])))
  | .obj fields => some (fields.map (fun e => JsonVal.s e.1))
  | .null => none

/-- Python `.items()`: the key/value pairs of a dict; `none` models the
AttributeError raised on any other value. -/
def itemsOf : JsonVal → Option (List (String × JsonVal))
  | .obj fields => some fields
  | _ => none

/-- Effectful map over a list in the `Option` monad; `none` as soon as any
element fails, mirroring a Python loop aborted by an exception. -/
def traverseOpt {α β : Type} (f : α → Option β) : List α → Option (List β)
  | [] => some []
  | x :: xs =>
    match f x, traverseOpt f xs with
    | some y, some ys => some (y :: ys)
    | _, _ => none

/-- Python `str` extraction: `some` for a JSON string, `none` otherwise
(models the TypeError/AttributeError of treating a non-string as a string). -/
def strOf : JsonVal → Option String
  | .s str => some str
  | _ => none

/-- Python `sep.join(v)`: joins a list of strings; joining a string joins its
characters; joining a dict joins its keys; `none` models the TypeError on
null or on a list containing a non-string. -/
def pyJoin (sep : String) : JsonVal → Option String
  | .arr xs => (traverseOpt strOf xs).map (fun ss => sepJoin sep ss)
  | .s str => some (sepJoin sep (str.data.map (fun c => String.mk [c])))
  | .obj kvs => some (sepJoin sep (kvs.map (fun e => e.1)))
  | .null => none

/-- `ICIFetcher.parse_symbols_part` (ici.py): formats one part-of-speech
entry; `none` models the KeyError/TypeError on a malformed entry. -/
def parse_symbols_part (p : JsonVal) : Option String :=
  match dictIndex p "part", dictIndex p "means" with
  | some partVal, some meansVal =>
    match pyJoin "; " meansVal with
    | some ms => some ("`" ++ pyStr partVal ++ "`: " ++ ms)
    | none => none
  | _, _ => none

/-- One iteration of the `for symbol in data.get("symbols", [])` loop body of
`ICIFetcher.parse`: the blank line, the optional phonetics line, and one
bullet per part-of-speech entry of `symbol["parts"]`. -/
def parseSymbol (symbol : JsonVal) : Option (List String) :=
  match pyGet symbol "ph_am" with
  | none => none
  | some phAm =>
    match pyGet symbol "ph_en" with
    | none => none
    | some phEn =>
      let ph0 := "-"
      let ph1 := if pyTruthy phAm then ph0 ++ " US:\\[" ++ pyStr phAm ++ "\\]" else ph0
      let ph2 := if pyTruthy phEn then ph1 ++ " UK:\\[" ++ pyStr phEn ++ "\\]" else ph1
      let phLines := if 1 < ph2.length then [ph2] else []
      match dictIndex symbol "parts" with
      | none => none
      | some partsVal =>
        match iterElems partsVal with
        | none => none
        | some ps =>
          match traverseOpt parse_symbols_part ps with
          | some partStrs => some ("" :: phLines ++ partStrs.map (fun t => "\t- " ++ t))
          | none => none

/-- The fixed morphological-form label table `extbl` of `ICIFetcher.parse`. -/
def extbl : List (String × String) :=
  [("word_pl", "复数"), ("word_ing", "现在分词"), ("word_done", "过去分词"),
   ("word_past", "过去式"), ("word_third", "第三人称单数"),
   ("word_er", "比较级"), ("word_est", "最高级")]

/-- One iteration of the `for k, v in data.get("exchange", {}).items()` loop
of `ICIFetcher.parse`: skipped when `v` is falsy, otherwise one bullet built
from `extbl[k]` (KeyError, hence `none`, when `k` is outside the table). -/
def parseExchangeItem (kv : String × JsonVal) : Option (List String) :=
  if pyTruthy kv.2 then
    match (extbl.find? (fun e => e.1 = kv.1)).map (fun e => e.2), pyJoin "; " kv.2 with
    | some label, some ms => some ["\t- " ++ label ++ ": " ++ ms]
    | _, _ => none
  else some []

/-- One iteration of the `for sent in data.get("sent", [])` loop of
`ICIFetcher.parse`: the two quoted lines and the blank line, `none` on a
sentence without `orig` or `trans`. -/
def parseSent (sentVal : JsonVal) : Option (List String) :=
  match dictIndex sentVal "orig", dictIndex sentVal "trans" with
  | some o, some t => some ["> " ++ pyStr o, "> " ++ pyStr t, ""]
  | _, _ => none

/-- Concatenation of the per-iteration line blocks. -/
def concatAll : List (List String) → List String
  | [] => []
  | l :: ls => l ++ concatAll ls

/-- `ICIFetcher.parse` (ici.py): renders a decoded API response to display
lines.  `some lines` is a normal return, `none` an uncaught exception
(KeyError/TypeError/AttributeError); a non-dict argument is caught by the
try/except around the heading and yields `[""]`. -/
def parse (data : JsonVal) : Option (List String) :=
  match data with
  | .obj _ =>
    let heading := "### " ++ pyStr (pyGetD data "word_name" .null)
    match iterElems (pyGetD data "symbols" (.arr [])) with
    | none => none
    | some symbols =>
      match traverseOpt parseSymbol symbols with
      | none => none
      | some symBlocks =>
        match itemsOf (pyGetD data "exchange" (.obj [])) with
        | none => none
        | some kvs =>
          match traverseOpt parseExchangeItem kvs with
          | none => none
          | some exParts =>
            let exchangeLines := concatAll exParts
            let exBlock := if exchangeLines.isEmpty then []
                           else "" :: "- 词态变化:" :: exchangeLines
            match iterElems (pyGetD data "sent" (.arr [])) with
            | none => none
            | some sents =>
              match traverseOpt parseSent sents with
              | none => none
              | some sentBlocks =>
                some (heading :: (concatAll symBlocks ++ exBlock ++ concatAll sentBlocks))
  | _ => some [""]

/-- Python `"\n".join`. -/
def joinLines (ls : List String) : String := sepJoin "\n" ls

/-- Python `str.lower()`, restricted to its ASCII action (every word the
server hands to `translate` is a run of ASCII letters). -/
def pyLower (s : String) : String := String.mk (s.data.map Char.toLower)

/-- The level-db cache: an association list from key (the bytes of a word,
modeled as the word string) to the stored raw response (modeled by its
decoded value; `translate` only ever stores bytes it has just decoded).
`db.get` returns the most recently written value for the key. -/
def lldbGet : List (String × JsonVal) → String → Option JsonVal
  | [], _ => none
  | e :: rest, key => if e.1 = key then some e.2 else lldbGet rest key

/-- `db.put(key, value, sync=True)`: store overwrites the key.  Because
`lldbGet` returns the first (most recent) entry for a key, prepending is
observationally the overwrite. -/
def lldbPut (cache : List (String × JsonVal)) (key : String) (v : JsonVal) :
    List (String × JsonVal) :=
  (key, v) :: cache

/-- Outcome of `ICIFetcher.__ici_get` followed by `orjson.loads`: a network
error or a body that fails to decode is `error`; a decoded body is `ok`. -/
inductive FetchErr where
  | net
  | decode

/-- Observable outcome of one `ICIFetcher.translate` call: the returned
value (`Except.error ()` models an uncaught exception escaping the call,
`Except.ok none` the explicit `return None`), the cache state afterwards,
and whether a remote fetch was attempted. -/
structure TransResult where
  output : Except Unit (Option String)
  cache : List (String × JsonVal)
  fetched : Bool

/-- `ICIFetcher.translate` (ici.py), parameterized by the remote fetcher and
the current cache contents.  Mirrors the source line by line: lower the word,
consult the cache, on hit render the stored response; on miss fetch, decode,
return `None` when `word_name` is falsy, otherwise store the raw response
under `word_name.encode()` and render.  No exception handling anywhere. -/
def ICIFetcher.translate (fetch : String → Except FetchErr JsonVal)
    (cache : List (String × JsonVal)) (word : String) : TransResult :=
  let w := pyLower word
  match lldbGet cache w with
  | some data =>
    match parse data with
    | some ls => ⟨.ok (some (joinLines ls)), cache, false⟩
    | none => ⟨.error (), cache, false⟩
  | none =>
    match fetch w with
    | .error _ => ⟨.error (), cache, true⟩
    | .ok content =>
      match pyGet content "word_name" with
      | none => ⟨.error (), cache, true⟩
      | some wnv =>
        if pyTruthy wnv then
          match strOf wnv with
          | some wn =>
            let cache2 := lldbPut cache wn content
            match parse content with
            | some ls => ⟨.ok (some (joinLines ls)), cache2, true⟩
            | none => ⟨.error (), cache2, true⟩
          | none => ⟨.error (), cache, true⟩
        else ⟨.ok none, cache, true⟩

/-- The mocked API response of the spec's §8 example for the word "test". -/
def testResp : JsonVal :=
  .obj [("word_name", .s "test"),
        ("symbols", .arr [.obj [("ph_am", .s "tɛst"), ("ph_en", .s "test"),
                                ("parts", .arr [.obj [("part", .s "n."),
                                                      ("means", .arr [.s "a trial"])]])]]),
        ("exchange", .obj [("word_pl", .arr [.s "tests"])]),
        ("sent", .arr [.obj [("orig", .s "This is a test."),
                             ("trans", .s "这是一个测试。")]])]

/-- The display lines `parse` renders for `testResp`. -/
def testRespLines : List String :=
  ["### test", "", "- US:\\[tɛst\\] UK:\\[test\\]", "\t- `n.`: a trial",
   "", "- 词态变化:", "\t- 复数: tests",
   "> This is a test.", "> 这是一个测试。", ""]

/-- The character class `[A-Za-z]` of the three regexes in server.py. -/
def isAsciiLetter (c : Char) : Bool :=
  ('a' ≤ c && c ≤ 'z') || ('A' ≤ c && c ≤ 'Z')

/-- The maximal run of ASCII letters at the end of a character list. -/
def trailingLetters (cs : List Char) : List Char :=
  (cs.reverse.takeWhile isAsciiLetter).reverse

/-- What precedes the maximal trailing ASCII-letter run. -/
def beforeRun (cs : List Char) : List Char :=
  (cs.reverse.dropWhile isAsciiLetter).reverse

/-- `re.search` scan for the pattern `[A-Za-z]*$` (RE_START_WORD): try each
position `i` left to right; the pattern matches at `i` exactly when the whole
suffix from `i` is ASCII letters (the star must reach `$`).  Returns the
matched group and `span()[0]`.  Fuel-driven so that evaluation is by kernel
reduction; fuel `s.length + 1` covers every candidate position. -/
def searchStartWordAux (s : List Char) : Nat → Nat → Option (List Char × Nat)
  | 0, _ => none
  | fuel + 1, i =>
    if (s.drop i).all isAsciiLetter then some (s.drop i, i)
    else searchStartWordAux s fuel (i + 1)

/-- `RE_START_WORD.search(s)` of server.py. -/
def searchStartWord (s : List Char) : Option (List Char × Nat) :=
  searchStartWordAux s (s.length + 1) 0

/-- `RE_END_WORD.search(s)` of server.py: the pattern `^[A-Za-z]*` is anchored
at position 0 and always matches there, greedily taking the maximal leading
ASCII-letter run. -/
def searchEndWord (s : List Char) : Option (List Char) :=
  some (s.takeWhile isAsciiLetter)

/-- `re.search` scan for `[a-zA-Z]{3,}$` (RE_END_HEAD): the pattern matches at
position `i` exactly when the suffix from `i` is all ASCII letters and at
least 3 long (the counted repetition must reach `$`). -/
def searchEndHeadAux (s : List Char) : Nat → Nat → Option (List Char × Nat)
  | 0, _ => none
  | fuel + 1, i =>
    if 3 ≤ (s.drop i).length && (s.drop i).all isAsciiLetter then some (s.drop i, i)
    else searchEndHeadAux s fuel (i + 1)

/-- `RE_END_HEAD.search(s)` of server.py. -/
def searchEndHead (s : List Char) : Option (List Char × Nat) :=
  searchEndHeadAux s (s.length + 1) 0

/-- `LookLS.__word_at_position` (server.py): split the line at the server
column, search `[A-Za-z]*$` in the left part and `^[A-Za-z]*` in the right
part, assert both matched, and return the concatenated groups together with
the left match's start offset.  `none` models a failing assert. -/
def LookLS.word_at_position (line : List Char) (serverCol : Nat) :
    Option (List Char × Nat) :=
  match searchStartWord (line.take serverCol), searchEndWord (line.drop serverCol) with
  | some (g1, i1), some g2 => some (g1 ++ g2, i1)
  | _, _ => none

/-- Modelled from the spec: the Position Mapper (spec section 4.1) is provided
by the external pygls position codec, not by code under src/.  A client text
encoding assigns each character a positive unit width; this converts a client
offset to a server (character) offset, clamping past end of line and flooring
an offset that lands inside a multi-unit character to that character's start
boundary so spans never split a character. -/
def toServerOffset (width : Char → Nat) : List Char → Nat → Nat
  | _, 0 => 0
  | [], _ => 0
  | c :: cs, u + 1 =>
    if u + 1 < width c then 0
    else 1 + toServerOffset width cs (u + 1 - width c)

/-- Modelled from the spec: the inverse direction of the Position Mapper
(spec section 4.1), converting a server character offset back to client
units by summing the widths of the preceding characters. -/
def toClientOffset (width : Char → Nat) (line : List Char) (serverCol : Nat) : Nat :=
  ((line.take serverCol).map width).foldr (fun a b => a + b) 0

/-- Modelled from the spec: the default client text-unit encoding of the
editor protocol (UTF-16), under which characters outside the basic plane
occupy two units. -/
def utf16Width (c : Char) : Nat := if c.toNat < 65536 then 1 else 2

/-- The completion list the `completions` handler of server.py returns:
`is_incomplete`, the `edit_range` start and end character offsets (as the
code builds them, in server units on the request's line), and the item
labels produced from the `look` output. -/
structure CompletionListModel where
  isIncomplete : Bool
  editStartChar : Nat
  editEndChar : Nat
  itemLabels : List String

/-- The `completions` handler of server.py for one in-bounds line,
parameterized by the client's unit widths and by the subprocess search:
map the client position to server units, take `head = line[:server_col]`,
return nothing when `head` is empty or `RE_END_HEAD` finds no match, and
otherwise build the completion list with `edit_range` from `match.span()[0]`
to `len(head)` (character offsets, not translated back to client units)
and one item per word `look` returns for `match.group()`. -/
def LookLS.completions (width : Char → Nat) (look : String → List String)
    (line : List Char) (clientCol : Nat) : Option CompletionListModel :=
  let serverCol := toServerOffset width line clientCol
  let head := line.take serverCol
  if head.isEmpty then none
  else
    match searchEndHead head with
    | none => none
    | some (g, i) => some ⟨false, i, head.length, look (String.mk g)⟩

/-- Python `str.splitlines()` for newline-separated subprocess output. -/
def splitlinesAux : List Char → List Char → List String
  | [], [] => []
  | [], acc => [String.mk acc.reverse]
  | c :: rest, acc =>
    if c = '\n' then String.mk acc.reverse :: splitlinesAux rest []
    else splitlinesAux rest (c :: acc)

/-- Python `str.splitlines()` (the `look` output contains no other breaks). -/
def splitlines (s : String) : List String := splitlinesAux s.data []

/-- Outcome of `asyncio.create_subprocess_exec` + `communicate` for the
`look` invocation: `noTool` models the FileNotFoundError raised when the
executable is missing (nothing is spawned); `ran stdout` models a spawned
process that exited (successfully or not) with the given captured output. -/
inductive SpawnResult where
  | noTool
  | ran (stdout : String)

/-- The argv `LookLS.__look` spawns: `look -df <prefixArg> <dictFile>`. -/
def lookCmd (prefixArg dictFile : String) : List String :=
  ["look", "-df", prefixArg, dictFile]

/-- `LookLS.__look` (server.py), parameterized by the process environment:
spawn `look -df prefixArg dictFile`, decode its stdout and split it into
lines.  A missing executable raises (`Except.error`); an erroring tool that
produced no output yields `[]` because `"".splitlines() == []`. -/
def LookLS.look (spawn : List String → SpawnResult) (dictFile prefixArg : String) :
    Except Unit (List String) :=
  match spawn (lookCmd prefixArg dictFile) with
  | .noTool => .error ()
  | .ran out => .ok (splitlines out)

/-- The `dict_file or "/usr/share/dict/words"` default applied once in
`LookLS.__init__`: the fallback path is chosen only when the constructor
argument is `None` or empty, and the chosen path is then used for every
search. -/
def chooseDictFile : Option String → String
  | none => "/usr/share/dict/words"
  | some s => if s = "" then "/usr/share/dict/words" else s

/-- Sufficient well-formedness of a `means` value: an array of strings. -/
def isStrArr : JsonVal → Bool
  | .arr xs => xs.all (fun x => (strOf x).isSome)
  | _ => false

/-- Well-formedness of one part-of-speech entry: carries `part` and a
string-array `means`. -/
def wfPart (p : JsonVal) : Bool :=
  (dictIndex p "part").isSome &&
  (match dictIndex p "means" with
   | some m => isStrArr m
   | none => false)

/-- Well-formedness of one `symbols` entry: a dict carrying a `parts` array
of well-formed part entries (the phonetic fields may be absent). -/
def wfSymbol (sym : JsonVal) : Bool :=
  match sym with
  | .obj _ =>
    (match dictIndex sym "parts" with
     | some (.arr ps) => ps.all wfPart
     | _ => false)
  | _ => false

/-- Well-formedness of one `exchange` item: either falsy (skipped) or a key
from the fixed table with a string-array value. -/
def wfExchangeItem (kv : String × JsonVal) : Bool :=
  !pyTruthy kv.2 || ((extbl.find? (fun e => e.1 = kv.1)).isSome && isStrArr kv.2)

/-- Well-formedness of one `sent` entry: carries `orig` and `trans`. -/
def wfSent (sv : JsonVal) : Bool :=
  (dictIndex sv "orig").isSome && (dictIndex sv "trans").isSome

/-- Well-formedness of the `symbols` field: absent or an array of
well-formed symbol entries. -/
def wfSymbolsField (d : JsonVal) : Bool :=
  match pyGetD d "symbols" (.arr []) with
  | .arr ss => ss.all wfSymbol
  | _ => false

/-- Well-formedness of the `exchange` field: absent or a dict of well-formed
exchange items. -/
def wfExchangeField (d : JsonVal) : Bool :=
  match pyGetD d "exchange" (.obj []) with
  | .obj kvs => kvs.all wfExchangeItem
  | _ => false

/-- Well-formedness of the `sent` field: absent or an array of well-formed
sentence pairs. -/
def wfSentField (d : JsonVal) : Bool :=
  match pyGetD d "sent" (.arr []) with
  | .arr ts => ts.all wfSent
  | _ => false

/-- The class of decoded responses on which `parse` cannot raise: top-level
optional fields (`word_name`, `symbols`, `exchange`, `sent`, the phonetics)
may be absent, but every present `symbols` entry, `exchange` item and `sent`
entry must carry the fields the code subscripts directly. -/
def wfResp (d : JsonVal) : Bool :=
  match d with
  | .obj _ => wfSymbolsField d && wfExchangeField d && wfSentField d
  | _ => true

/-- A response whose canonical headword differs in case from the lookup key. -/
def parisResp : JsonVal := .obj [("word_name", .s "Paris")]

/-- The process environment of a machine where the configured dictionary file
is absent: `look` run against the default system word list finds the
candidates, while `look` run against the missing configured path errors and
emits nothing on stdout. -/
def spawnAbsentCfg (args : List String) : SpawnResult :=
  if args = lookCmd "cat" "/usr/share/dict/words" then .ran "cat\ncatalog\n"
  else .ran ""

theorem beforeRun_append_trailing (cs : List Char) :
    beforeRun cs ++ trailingLetters cs = cs := by
  have h : cs.reverse.takeWhile isAsciiLetter ++ cs.reverse.dropWhile isAsciiLetter
      = cs.reverse := List.takeWhile_append_dropWhile ..
  calc beforeRun cs ++ trailingLetters cs
      = (cs.reverse.takeWhile isAsciiLetter ++ cs.reverse.dropWhile isAsciiLetter).reverse := by
        rw [List.reverse_append]; rfl
    _ = cs.reverse.reverse := by rw [h]
    _ = cs := cs.reverse_reverse

theorem trailing_all (cs : List Char) :
    (trailingLetters cs).all isAsciiLetter = true := by
  unfold trailingLetters
  rw [List.all_reverse]
  exact List.all_takeWhile ..

theorem beforeRun_length_add (cs : List Char) :
    (beforeRun cs).length + (trailingLetters cs).length = cs.length := by
  conv_rhs => rw [← beforeRun_append_trailing cs]
  rw [List.length_append]

theorem drop_beforeRun_length (cs : List Char) :
    cs.drop (beforeRun cs).length = trailingLetters cs := by
  have h := List.drop_left (beforeRun cs) (trailingLetters cs)
  rw [beforeRun_append_trailing cs] at h
  exact h

theorem all_drop_false (cs : List Char) (j : Nat) (hj : j < (beforeRun cs).length) :
    (cs.drop j).all isAsciiLetter = false := by
  have hD : cs.reverse.dropWhile isAsciiLetter ≠ [] := by
    intro h
    rw [beforeRun, h] at hj
    simp at hj
  have hb : isAsciiLetter ((cs.reverse.dropWhile isAsciiLetter).head hD) = false :=
    List.head_dropWhile_not ..
  have hDcons : cs.reverse.dropWhile isAsciiLetter
      = (cs.reverse.dropWhile isAsciiLetter).head hD :: (cs.reverse.dropWhile isAsciiLetter).tail :=
    (List.head_cons_tail _ hD).symm
  have hlen : (beforeRun cs).length = (cs.reverse.dropWhile isAsciiLetter).tail.length + 1 := by
    rw [beforeRun, List.length_reverse]
    conv_lhs => rw [hDcons]
    rfl
  have hsplit : cs.drop j = (beforeRun cs).drop j ++ trailingLetters cs := by
    have h : (beforeRun cs ++ trailingLetters cs).drop j
        = (beforeRun cs).drop j ++ trailingLetters cs :=
      List.drop_append_of_le_length (le_of_lt hj)
    rw [beforeRun_append_trailing cs] at h
    exact h
  have hbr : (beforeRun cs).drop j
      = (cs.reverse.dropWhile isAsciiLetter).tail.reverse.drop j
        ++ [(cs.reverse.dropWhile isAsciiLetter).head hD] := by
    rw [beforeRun]
    conv_lhs => rw [hDcons]
    rw [List.reverse_cons]
    exact List.drop_append_of_le_length (by rw [List.length_reverse]; omega)
  have hmem : (cs.reverse.dropWhile isAsciiLetter).head hD ∈ cs.drop j := by
    rw [hsplit, hbr]
    simp
  cases hall : (cs.drop j).all isAsciiLetter with
  | false => rfl
  | true =>
    exfalso
    have := (List.all_eq_true.mp hall) _ hmem
    rw [hb] at this
    cases this

theorem searchStartWordAux_eq (s : List Char) :
    ∀ fuel i, i ≤ (beforeRun s).length → (beforeRun s).length < i + fuel →
    searchStartWordAux s fuel i = some (trailingLetters s, (beforeRun s).length) := by
  intro fuel
  induction fuel with
  | zero => intro i h1 h2; omega
  | succ n ih =>
    intro i h1 h2
    by_cases hik : i = (beforeRun s).length
    · subst hik
      have h3 : (s.drop (beforeRun s).length).all isAsciiLetter = true := by
        rw [drop_beforeRun_length]; exact trailing_all s
      simp only [searchStartWordAux, h3, if_true]
      rw [drop_beforeRun_length]
    · have hlt : i < (beforeRun s).length := lt_of_le_of_ne h1 hik
      have h3 := all_drop_false s i hlt
      simp only [searchStartWordAux, h3]
      simp only [Bool.false_eq_true, if_false]
      exact ih (i + 1) (by omega) (by omega)

theorem searchStartWord_eq (s : List Char) :
    searchStartWord s = some (trailingLetters s, (beforeRun s).length) := by
  have hk : (beforeRun s).length ≤ s.length := by
    have := beforeRun_length_add s; omega
  exact searchStartWordAux_eq s (s.length + 1) 0 (Nat.zero_le _) (by omega)

theorem searchEndHeadAux_found (s : List Char) (h3 : 3 ≤ (trailingLetters s).length) :
    ∀ fuel i, i ≤ (beforeRun s).length → (beforeRun s).length < i + fuel →
    searchEndHeadAux s fuel i = some (trailingLetters s, (beforeRun s).length) := by
  intro fuel
  induction fuel with
  | zero => intro i h1 h2; omega
  | succ n ih =>
    intro i h1 h2
    by_cases hik : i = (beforeRun s).length
    · subst hik
      have ha : (s.drop (beforeRun s).length).all isAsciiLetter = true := by
        rw [drop_beforeRun_length]; exact trailing_all s
      have hl : decide (3 ≤ (s.drop (beforeRun s).length).length) = true := by
        rw [drop_beforeRun_length]
        exact decide_eq_true h3
      simp only [searchEndHeadAux, ha, hl, Bool.and_self, if_true]
      rw [drop_beforeRun_length]
    · have hlt : i < (beforeRun s).length := lt_of_le_of_ne h1 hik
      have ha := all_drop_false s i hlt
      simp only [searchEndHeadAux, ha, Bool.and_false]
      simp only [Bool.false_eq_true, if_false]
      exact ih (i + 1) (by omega) (by omega)

theorem searchEndHeadAux_nomatch (s : List Char) (h3 : (trailingLetters s).length < 3) :
    ∀ fuel i, searchEndHeadAux s fuel i = none := by
  intro fuel
  induction fuel with
  | zero => intro i; rfl
  | succ n ih =>
    intro i
    have hcond : (decide (3 ≤ (s.drop i).length) && (s.drop i).all isAsciiLetter) = false := by
      by_cases hik : i < (beforeRun s).length
      · rw [all_drop_false s i hik, Bool.and_false]
      · have hlen : (s.drop i).length < 3 := by
          rw [List.length_drop]
          have hadd := beforeRun_length_add s
          omega
        rw [decide_eq_false (by omega), Bool.false_and]
    simp only [searchEndHeadAux, hcond]
    simp only [Bool.false_eq_true, if_false]
    exact ih (i + 1)

theorem searchEndHead_eq_some (s : List Char) (h3 : 3 ≤ (trailingLetters s).length) :
    searchEndHead s = some (trailingLetters s, (beforeRun s).length) := by
  have hk : (beforeRun s).length ≤ s.length := by
    have := beforeRun_length_add s; omega
  exact searchEndHeadAux_found s h3 (s.length + 1) 0 (Nat.zero_le _) (by omega)

theorem searchEndHead_eq_none (s : List Char) (h3 : (trailingLetters s).length < 3) :
    searchEndHead s = none :=
  searchEndHeadAux_nomatch s h3 (s.length + 1) 0

theorem trailing_append_singleton_nil_iff (A : List Char) (b : Char) :
    (trailingLetters (A ++ [b]) = []) ↔ isAsciiLetter b = false := by
  unfold trailingLetters
  rw [List.reverse_append]
  simp only [List.reverse_cons, List.reverse_nil, List.nil_append, List.singleton_append]
  rw [List.takeWhile_cons]
  cases hb : isAsciiLetter b with
  | false => simp
  | true => simp

theorem takeWhile_drop_nil_iff (ln : List Char) (col : Nat) :
    ((ln.drop col).takeWhile isAsciiLetter = [])
      ↔ (∀ (hc : col < ln.length), isAsciiLetter ln[col] = false) := by
  by_cases hc : col < ln.length
  · rw [List.drop_eq_getElem_cons hc, List.takeWhile_cons]
    cases hb : isAsciiLetter ln[col] with
    | false => simp [hb]
    | true =>
      constructor
      · intro habs
        simp at habs
      · intro hall
        have h2 := hall hc
        rw [hb] at h2
        cases h2
  · have hd : ln.drop col = [] := List.drop_eq_nil_of_le (by omega)
    rw [hd]
    constructor
    · intro _ h
      omega
    · intro _
      rfl

theorem trailing_take_nil_iff (ln : List Char) (col : Nat) (hcol : col ≤ ln.length) :
    (trailingLetters (ln.take col) = [])
      ↔ (∀ (i : Nat) (hi : i < ln.length), i + 1 = col → isAsciiLetter ln[i] = false) := by
  by_cases h0 : 0 < col
  · have hidx : col - 1 < ln.length := by omega
    have htake : ln.take col = ln.take (col - 1) ++ [ln[col - 1]] := by
      conv_lhs => rw [show col = (col - 1) + 1 by omega]
      rw [List.take_succ, List.getElem?_eq_getElem hidx]
      rfl
    rw [htake, trailing_append_singleton_nil_iff]
    constructor
    · intro hb i hi h1
      have h2 : i = col - 1 := by omega
      subst h2
      exact hb
    · intro hall
      exact hall (col - 1) hidx (by omega)
  · have hc0 : col = 0 := by omega
    subst hc0
    constructor
    · intro _ i hi h1
      omega
    · intro _
      rfl

/-- C5: for every ln and in-bounds offset, `__word_at_position` returns the
concatenation of the maximal ASCII-letter run scanning left from the offset
with the maximal ASCII-letter run scanning right from it; the word consists
of ASCII letters, occupies the contiguous span of the ln starting at the
returned offset, contains the queried offset when non-empty, and is empty
exactly when no letter is adjacent to the offset. -/
theorem word_at_position_correct (ln : List Char) (col : Nat) (w : List Char) (st : Nat)
    (hcol : col ≤ ln.length)
    (h : LookLS.word_at_position ln col = some (w, st)) :
    w = trailingLetters (ln.take col) ++ (ln.drop col).takeWhile isAsciiLetter ∧
    w.all isAsciiLetter = true ∧
    st + (trailingLetters (ln.take col)).length = col ∧
    (ln.drop st).take w.length = w ∧
    (w ≠ [] → st ≤ col ∧ col ≤ st + w.length) ∧
    (w = [] ↔ (∀ (hc : col < ln.length), isAsciiLetter ln[col] = false) ∧
              (∀ (i : Nat) (hi : i < ln.length), i + 1 = col
                → isAsciiLetter ln[i] = false)) := by
  simp only [LookLS.word_at_position, searchStartWord_eq, searchEndWord,
    Option.some.injEq, Prod.mk.injEq] at h
  obtain ⟨hw, hst⟩ := h
  have htcl : (ln.take col).length = col := by
    rw [List.length_take]
    omega
  have hBL := beforeRun_length_add (ln.take col)
  rw [htcl] at hBL
  subst hw
  subst hst
  have hdrop : ln.drop (beforeRun (ln.take col)).length
      = trailingLetters (ln.take col)
        ++ ((ln.drop col).takeWhile isAsciiLetter
            ++ (ln.drop col).dropWhile isAsciiLetter) := by
    have hline : beforeRun (ln.take col)
        ++ (trailingLetters (ln.take col)
            ++ ((ln.drop col).takeWhile isAsciiLetter
                ++ (ln.drop col).dropWhile isAsciiLetter)) = ln := by
      rw [← List.append_assoc, beforeRun_append_trailing,
        List.takeWhile_append_dropWhile, List.take_append_drop]
    have h2 := List.drop_left (beforeRun (ln.take col))
      (trailingLetters (ln.take col)
        ++ ((ln.drop col).takeWhile isAsciiLetter
            ++ (ln.drop col).dropWhile isAsciiLetter))
    rw [hline] at h2
    exact h2
  refine ⟨rfl, ?_, ?_, ?_, ?_, ?_⟩
  · rw [List.all_append, trailing_all, List.all_takeWhile]
    rfl
  · exact hBL
  · rw [hdrop, ← List.append_assoc]
    exact List.take_left ..
  · intro _
    rw [List.length_append]
    omega
  · rw [List.append_eq_nil, trailing_take_nil_iff ln col hcol,
      takeWhile_drop_nil_iff ln col, and_comm]

/-- C5 witness: the theorem applied to the line "x cat!" at offset 3. -/
theorem word_at_position_correct_witness :
    3 ≤ "x cat!".data.length ∧
    "cat".data.all isAsciiLetter = true ∧
    ("x cat!".data.drop 2).take 3 = "cat".data := by
  have h := word_at_position_correct "x cat!".data 3 "cat".data 2 (by decide) rfl
  exact ⟨by decide, h.2.1, h.2.2.2.1⟩

/-- C10: `__word_at_position` is total on every line and offset from 0 to the
line length: both regex searches succeed (each pattern admits the empty
match), so the asserts cannot fire and a (word, start) pair is returned. -/
theorem word_at_position_total (line : List Char) (serverCol : Nat)
    (_hcol : serverCol ≤ line.length) :
    (LookLS.word_at_position line serverCol).isSome = true := by
  simp only [LookLS.word_at_position, searchStartWord_eq, searchEndWord]
  rfl

/-- C10 witness: the theorem applied to a line of punctuation at offset 4. -/
theorem word_at_position_total_witness :
    4 ≤ "!?.,;".data.length ∧ (LookLS.word_at_position "!?.,;".data 4).isSome = true :=
  ⟨by decide, word_at_position_total "!?.,;".data 4 (by decide)⟩

/-- C6: the completion prefix search `RE_END_HEAD.search` on the text left of
the cursor returns nothing when the maximal ASCII-letter run ending at the
cursor is shorter than 3 (and the completion handler then returns no
response), and returns exactly that maximal run when it is at least 3 long. -/
theorem prefix_before_floor (width : Char → Nat) (look : String → List String)
    (line : List Char) (clientCol : Nat) (head : List Char)
    (hhead : head = line.take (toServerOffset width line clientCol)) :
    ((trailingLetters head).length < 3 →
      searchEndHead head = none ∧ LookLS.completions width look line clientCol = none) ∧
    (3 ≤ (trailingLetters head).length →
      searchEndHead head = some (trailingLetters head, (beforeRun head).length)) := by
  subst hhead
  constructor
  · intro h3
    refine ⟨searchEndHead_eq_none _ h3, ?_⟩
    by_cases he : (line.take (toServerOffset width line clientCol)).isEmpty
    · simp [LookLS.completions, he]
    · simp [LookLS.completions, he, searchEndHead_eq_none _ h3]
  · intro h3
    exact searchEndHead_eq_some _ h3

/-- C6 witness: the theorem applied to the lines "a cat" (run of length 3 at
the cursor) and "a ca" (run of length 2). -/
theorem prefix_before_floor_witness :
    searchEndHead ("a cat".data.take (toServerOffset (fun _ => 1) "a cat".data 5))
      = some ("cat".data, 2) ∧
    LookLS.completions (fun _ => 1) (fun _ => []) "a ca".data 4 = none := by
  constructor
  · have h := (prefix_before_floor (fun _ => 1) (fun _ => []) "a cat".data 5 _ rfl).2
      (by decide)
    rw [h]
    rfl
  · exact ((prefix_before_floor (fun _ => 1) (fun _ => []) "a ca".data 4 _ rfl).1
      (by decide)).2

theorem lldbGet_lldbPut_self (cache : List (String × JsonVal)) (k : String) (v : JsonVal) :
    lldbGet (lldbPut cache k v) k = some v := by
  simp [lldbGet, lldbPut]

theorem lldbGet_lldbPut_ne (cache : List (String × JsonVal)) (k k2 : String) (v : JsonVal)
    (h : ¬ k = k2) : lldbGet (lldbPut cache k v) k2 = lldbGet cache k2 := by
  simp [lldbGet, lldbPut, h]

theorem traverseOpt_isSome {α β : Type} (f : α → Option β) (l : List α)
    (h : ∀ a ∈ l, (f a).isSome = true) : (traverseOpt f l).isSome = true := by
  induction l with
  | nil => rfl
  | cons x xs ih =>
    have hx := h x (List.mem_cons_self ..)
    have hxs := ih (fun a ha => h a (List.mem_cons_of_mem _ ha))
    unfold traverseOpt
    cases hfx : f x with
    | none => rw [hfx] at hx; cases hx
    | some y =>
      cases ht : traverseOpt f xs with
      | none => rw [ht] at hxs; cases hxs
      | some ys => rfl

theorem pyJoin_isSome_of_strArr (sep : String) (m : JsonVal) (h : isStrArr m = true) :
    (pyJoin sep m).isSome = true := by
  cases m with
  | arr xs =>
    have hall : (traverseOpt strOf xs).isSome = true := by
      apply traverseOpt_isSome
      intro a ha
      exact (List.all_eq_true.mp h) a ha
    simp only [pyJoin]
    cases ht : traverseOpt strOf xs with
    | none => rw [ht] at hall; cases hall
    | some ss => rfl
  | null => cases h
  | s str => cases h
  | obj kvs => cases h

theorem parse_symbols_part_isSome (p : JsonVal) (h : wfPart p = true) :
    (parse_symbols_part p).isSome = true := by
  unfold wfPart at h
  rw [Bool.and_eq_true] at h
  obtain ⟨h1, h2⟩ := h
  unfold parse_symbols_part
  cases hp : dictIndex p "part" with
  | none => rw [hp] at h1; cases h1
  | some pv =>
    cases hm : dictIndex p "means" with
    | none => rw [hm] at h2; cases h2
    | some mv =>
      rw [hm] at h2
      have hj := pyJoin_isSome_of_strArr "; " mv h2
      show (match pyJoin "; " mv with
            | some ms => some ("`" ++ pyStr pv ++ "`: " ++ ms)
            | none => none).isSome = true
      cases hjj : pyJoin "; " mv with
      | none => rw [hjj] at hj; cases hj
      | some ms => rfl

theorem parseSymbol_isSome (sym : JsonVal) (h : wfSymbol sym = true) :
    (parseSymbol sym).isSome = true := by
  cases sym with
  | null => cases h
  | s str => cases h
  | arr xs => cases h
  | obj fs =>
    unfold wfSymbol at h
    cases hp : dictIndex (.obj fs) "parts" with
    | none => rw [hp] at h; cases h
    | some pv =>
      rw [hp] at h
      cases pv with
      | arr ps =>
        unfold parseSymbol
        simp only [pyGet]
        rw [hp]
        simp only [iterElems]
        have hj : (traverseOpt parse_symbols_part ps).isSome = true := by
          apply traverseOpt_isSome
          intro a ha
          exact parse_symbols_part_isSome a ((List.all_eq_true.mp h) a ha)
        cases ht : traverseOpt parse_symbols_part ps with
        | none => rw [ht] at hj; cases hj
        | some pss => rfl
      | null => cases h
      | s str => cases h
      | obj kvs => cases h

theorem parseExchangeItem_isSome (kv : String × JsonVal) (h : wfExchangeItem kv = true) :
    (parseExchangeItem kv).isSome = true := by
  unfold wfExchangeItem at h
  unfold parseExchangeItem
  cases htr : pyTruthy kv.2 with
  | false => simp [htr]
  | true =>
    rw [htr] at h
    simp only [Bool.not_true, Bool.false_or, Bool.and_eq_true] at h
    obtain ⟨hf, hs⟩ := h
    have hj := pyJoin_isSome_of_strArr "; " kv.2 hs
    cases hfind : extbl.find? (fun e => e.1 = kv.1) with
    | none => rw [hfind] at hf; cases hf
    | some lab =>
      cases hjj : pyJoin "; " kv.2 with
      | none => rw [hjj] at hj; cases hj
      | some ms => rfl

theorem parseSent_isSome (sv : JsonVal) (h : wfSent sv = true) :
    (parseSent sv).isSome = true := by
  unfold wfSent at h
  rw [Bool.and_eq_true] at h
  obtain ⟨h1, h2⟩ := h
  unfold parseSent
  cases ho : dictIndex sv "orig" with
  | none => rw [ho] at h1; cases h1
  | some o =>
    cases ht : dictIndex sv "trans" with
    | none => rw [ht] at h2; cases h2
    | some t => rfl

/-- C4 (amended): `parse` never raises on a decoded response in which every
`symbols` entry carries a `parts` array of entries with `part` and `means`,
every truthy `exchange` value sits under one of the seven fixed form keys,
and every sentence carries `orig` and `trans`; within that class the optional
fields (`word_name`, `symbols`, `exchange`, `sent`, `ph_am`, `ph_en`) may be
absent and are treated as empty.  (The original claim — totality over all
decoded responses — is false, see the counterexample.) -/
theorem parse_total_on_wellformed (d : JsonVal) (h : wfResp d = true) :
    (parse d).isSome = true := by
  cases d with
  | null => rfl
  | s str => rfl
  | arr xs => rfl
  | obj fs =>
    have h2 : (wfSymbolsField (JsonVal.obj fs) && wfExchangeField (JsonVal.obj fs)
        && wfSentField (JsonVal.obj fs)) = true := h
    rw [Bool.and_eq_true, Bool.and_eq_true] at h2
    obtain ⟨⟨hsym, hex⟩, hsent⟩ := h2
    simp only [wfSymbolsField] at hsym
    simp only [wfExchangeField] at hex
    simp only [wfSentField] at hsent
    simp only [parse]
    cases hs : pyGetD (JsonVal.obj fs) "symbols" (JsonVal.arr []) with
    | null => rw [hs] at hsym; cases hsym
    | s str => rw [hs] at hsym; cases hsym
    | obj kvs0 => rw [hs] at hsym; cases hsym
    | arr ss =>
      rw [hs] at hsym
      simp only [iterElems]
      have h1 : (traverseOpt parseSymbol ss).isSome = true :=
        traverseOpt_isSome _ _
          (fun a ha => parseSymbol_isSome a ((List.all_eq_true.mp hsym) a ha))
      cases ht1 : traverseOpt parseSymbol ss with
      | none => rw [ht1] at h1; cases h1
      | some symBlocks =>
        cases he : pyGetD (JsonVal.obj fs) "exchange" (JsonVal.obj []) with
        | null => rw [he] at hex; cases hex
        | s str => rw [he] at hex; cases hex
        | arr xs0 => rw [he] at hex; cases hex
        | obj kvs =>
          rw [he] at hex
          simp only [itemsOf]
          have h2 : (traverseOpt parseExchangeItem kvs).isSome = true :=
            traverseOpt_isSome _ _
              (fun a ha => parseExchangeItem_isSome a ((List.all_eq_true.mp hex) a ha))
          cases ht2 : traverseOpt parseExchangeItem kvs with
          | none => rw [ht2] at h2; cases h2
          | some exParts =>
            cases hse : pyGetD (JsonVal.obj fs) "sent" (JsonVal.arr []) with
            | null => rw [hse] at hsent; cases hsent
            | s str => rw [hse] at hsent; cases hsent
            | obj kvs1 => rw [hse] at hsent; cases hsent
            | arr ts =>
              rw [hse] at hsent
              simp only [iterElems]
              have h3 : (traverseOpt parseSent ts).isSome = true :=
                traverseOpt_isSome _ _
                  (fun a ha => parseSent_isSome a ((List.all_eq_true.mp hsent) a ha))
              cases ht3 : traverseOpt parseSent ts with
              | none => rw [ht3] at h3; cases h3
              | some sentBlocks => rfl

/-- C4 counterexample: a decoded response whose single `symbols` entry lacks
`parts` (field absence) makes `parse` raise a KeyError instead of treating
the absence as empty — so `parse` is not total over decoded responses. -/
theorem parse_missing_parts_counterexample :
    parse (.obj [("word_name", .s "x"), ("symbols", .arr [.obj []])]) = none := rfl

/-- C4 witness: the mocked "test" response is well-formed and `parse`
succeeds on it. -/
theorem parse_total_on_wellformed_witness :
    wfResp testResp = true ∧ (parse testResp).isSome = true :=
  ⟨rfl, parse_total_on_wellformed testResp rfl⟩

/-- C1 (amended): on a cache miss whose fetch decodes to a response carrying
a truthy string canonical headword `wn`, `translate` persists the raw
response under `wn` exactly as the API returned it (`word_name.encode()`),
with no lowercasing; the write key equals the headword's lowercase form only
when the API already returns it in lowercase.  (The original claim — the
write key is the canonical headword's lowercase form — is false, see the
counterexample.) -/
theorem translate_persists_canonical
    (fetch : String → Except FetchErr JsonVal) (cache : List (String × JsonVal))
    (word : String) (content : JsonVal) (wn : String)
    (hmiss : lldbGet cache (pyLower word) = none)
    (hfetch : fetch (pyLower word) = .ok content)
    (hwn : pyGet content "word_name" = some (.s wn))
    (hne : ¬ wn = "") :
    lldbGet (ICIFetcher.translate fetch cache word).cache wn = some content ∧
    (ICIFetcher.translate fetch cache word).fetched = true := by
  have htr : pyTruthy (JsonVal.s wn) = true := by simp [pyTruthy, hne]
  have h1 : ICIFetcher.translate fetch cache word
      = match parse content with
        | some ls => ⟨.ok (some (joinLines ls)), lldbPut cache wn content, true⟩
        | none => ⟨.error (), lldbPut cache wn content, true⟩ := by
    simp only [ICIFetcher.translate, hmiss, hfetch, hwn, htr, if_true, strOf]
  rw [h1]
  cases parse content with
  | some ls => exact ⟨lldbGet_lldbPut_self .., rfl⟩
  | none => exact ⟨lldbGet_lldbPut_self .., rfl⟩

/-- C1 counterexample: looked up as "paris", the API's canonical headword
"Paris" is persisted under the key "Paris" as returned — the lowercase key
"paris" remains absent from the cache. -/
theorem translate_write_key_counterexample :
    lldbGet (ICIFetcher.translate (fun _ => .ok parisResp) [] "paris").cache "paris"
      = none ∧
    lldbGet (ICIFetcher.translate (fun _ => .ok parisResp) [] "paris").cache "Paris"
      = some parisResp := ⟨rfl, rfl⟩

/-- C1 witness: the amended theorem applied to the "paris"/"Paris" fetch. -/
theorem translate_persists_canonical_witness :
    lldbGet ([] : List (String × JsonVal)) (pyLower "paris") = none ∧
    lldbGet (ICIFetcher.translate (fun _ => .ok parisResp) [] "paris").cache "Paris"
      = some parisResp :=
  ⟨rfl, (translate_persists_canonical (fun _ => .ok parisResp) [] "paris" parisResp
      "Paris" rfl rfl rfl (by decide)).1⟩

/-- C2 (amended): a network failure or a body that fails to decode during the
remote fetch propagates out of `translate` as an uncaught exception — there
is no handler in `translate` — leaving the cache unchanged; `translate`
returns the absent result only for a decoded response without a canonical
headword.  (The original claim — fetch failures are absorbed and the caller
receives "no result" — is false, see the counterexample.) -/
theorem translate_fetch_error_raises
    (fetch : String → Except FetchErr JsonVal) (cache : List (String × JsonVal))
    (word : String) (e : FetchErr)
    (hmiss : lldbGet cache (pyLower word) = none)
    (herr : fetch (pyLower word) = .error e) :
    (ICIFetcher.translate fetch cache word).output = .error () ∧
    (ICIFetcher.translate fetch cache word).cache = cache ∧
    (ICIFetcher.translate fetch cache word).fetched = true := by
  have h1 : ICIFetcher.translate fetch cache word = ⟨.error (), cache, true⟩ := by
    simp only [ICIFetcher.translate, hmiss, herr]
  rw [h1]
  exact ⟨rfl, rfl, rfl⟩

/-- C2 counterexample: with a failing fetch, `translate "test"` raises — its
outcome is the escaped error, not the absent result the claim promises. -/
theorem translate_fetch_error_counterexample :
    (ICIFetcher.translate (fun _ => .error .net) [] "test").output = .error () ∧
    ¬ (ICIFetcher.translate (fun _ => .error .net) [] "test").output = .ok none :=
  ⟨rfl, fun h => Except.noConfusion h⟩

/-- C2 witness: the amended theorem applied to a decode failure on "hello". -/
theorem translate_fetch_error_raises_witness :
    lldbGet ([] : List (String × JsonVal)) (pyLower "hello") = none ∧
    (ICIFetcher.translate (fun _ => .error FetchErr.decode) [] "hello").output
      = .error () :=
  ⟨rfl, (translate_fetch_error_raises (fun _ => .error .decode) [] "hello" .decode
      rfl rfl).1⟩

/-- C3 (amended): if a first `translate` call returns rendered text and the
cache afterwards holds an entry under the lowercased argument — that is, the
call was a cache hit, or its write key (the canonical headword as returned)
equals the lookup key — then a second call with the same argument returns
identical text and performs no remote fetch.  (Unconditionally the original
claim is false: when the canonical headword differs from the lowercased
argument the first call's write key is not the lookup key, and the second
call misses the cache and fetches again — see the counterexample.) -/
theorem translate_second_call_cached
    (fetch : String → Except FetchErr JsonVal) (cache : List (String × JsonVal))
    (word txt : String)
    (h1 : (ICIFetcher.translate fetch cache word).output = .ok (some txt))
    (h2 : ¬ lldbGet (ICIFetcher.translate fetch cache word).cache (pyLower word) = none) :
    (ICIFetcher.translate fetch (ICIFetcher.translate fetch cache word).cache word).output
      = .ok (some txt) ∧
    (ICIFetcher.translate fetch (ICIFetcher.translate fetch cache word).cache word).fetched
      = false := by
  cases hc : lldbGet cache (pyLower word) with
  | some d =>
    cases hp : parse d with
    | none =>
      have hA : ICIFetcher.translate fetch cache word = ⟨.error (), cache, false⟩ := by
        simp only [ICIFetcher.translate, hc, hp]
      rw [hA] at h1
      exact absurd h1 (fun hh => Except.noConfusion hh)
    | some ls =>
      have hA : ICIFetcher.translate fetch cache word
          = ⟨.ok (some (joinLines ls)), cache, false⟩ := by
        simp only [ICIFetcher.translate, hc, hp]
      have h3 : joinLines ls = txt := by
        rw [hA] at h1
        exact Option.some.inj (Except.ok.inj h1)
      constructor
      · rw [hA]
        show (ICIFetcher.translate fetch cache word).output = .ok (some txt)
        rw [hA, h3]
      · rw [hA]
        show (ICIFetcher.translate fetch cache word).fetched = false
        rw [hA]
  | none =>
    cases hf : fetch (pyLower word) with
    | error e =>
      have hA : ICIFetcher.translate fetch cache word = ⟨.error (), cache, true⟩ := by
        simp only [ICIFetcher.translate, hc, hf]
      rw [hA] at h1
      exact absurd h1 (fun hh => Except.noConfusion hh)
    | ok content =>
      cases hwn : pyGet content "word_name" with
      | none =>
        have hA : ICIFetcher.translate fetch cache word = ⟨.error (), cache, true⟩ := by
          simp only [ICIFetcher.translate, hc, hf, hwn]
        rw [hA] at h1
        exact absurd h1 (fun hh => Except.noConfusion hh)
      | some wnv =>
        cases htr : pyTruthy wnv with
        | false =>
          have hA : ICIFetcher.translate fetch cache word = ⟨.ok none, cache, true⟩ := by
            simp only [ICIFetcher.translate, hc, hf, hwn, htr]
            rfl
          rw [hA] at h1
          exact absurd (Except.ok.inj h1) (fun hh => Option.noConfusion hh)
        | true =>
          cases hs : strOf wnv with
          | none =>
            have hA : ICIFetcher.translate fetch cache word
                = ⟨.error (), cache, true⟩ := by
              simp only [ICIFetcher.translate, hc, hf, hwn, htr, if_true, hs]
            rw [hA] at h1
            exact absurd h1 (fun hh => Except.noConfusion hh)
          | some wn =>
            cases hp : parse content with
            | none =>
              have hA : ICIFetcher.translate fetch cache word
                  = ⟨.error (), lldbPut cache wn content, true⟩ := by
                simp only [ICIFetcher.translate, hc, hf, hwn, htr, if_true, hs, hp]
              rw [hA] at h1
              exact absurd h1 (fun hh => Except.noConfusion hh)
            | some ls =>
              have hA : ICIFetcher.translate fetch cache word
                  = ⟨.ok (some (joinLines ls)), lldbPut cache wn content, true⟩ := by
                simp only [ICIFetcher.translate, hc, hf, hwn, htr, if_true, hs, hp]
              have h3 : joinLines ls = txt := by
                rw [hA] at h1
                exact Option.some.inj (Except.ok.inj h1)
              by_cases hkey : wn = pyLower word
              · have hhit : lldbGet (lldbPut cache wn content) (pyLower word)
                    = some content := by
                  rw [← hkey]
                  exact lldbGet_lldbPut_self ..
                have hB : ICIFetcher.translate fetch (lldbPut cache wn content) word
                    = ⟨.ok (some (joinLines ls)), lldbPut cache wn content, false⟩ := by
                  simp only [ICIFetcher.translate, hhit, hp]
                constructor
                · rw [hA]
                  show (ICIFetcher.translate fetch (lldbPut cache wn content) word).output
                    = .ok (some txt)
                  rw [hB, h3]
                · rw [hA]
                  show (ICIFetcher.translate fetch (lldbPut cache wn content) word).fetched
                    = false
                  rw [hB]
              · exfalso
                apply h2
                rw [hA]
                show lldbGet (lldbPut cache wn content) (pyLower word) = none
                rw [lldbGet_lldbPut_ne cache wn (pyLower word) content hkey]
                exact hc

/-- C3 counterexample: looked up as "paris" with canonical headword "Paris",
the first call returns rendered text, yet the second call with the same
argument misses the cache and performs another remote fetch. -/
theorem translate_roundtrip_counterexample :
    (ICIFetcher.translate (fun _ => .ok parisResp) [] "paris").output
      = .ok (some "### Paris") ∧
    (ICIFetcher.translate (fun _ => .ok parisResp)
        (ICIFetcher.translate (fun _ => .ok parisResp) [] "paris").cache "paris").fetched
      = true := ⟨rfl, rfl⟩

/-- C3 witness: the amended theorem applied to the mocked "test" fetch, whose
canonical headword equals the lookup key. -/
theorem translate_second_call_cached_witness :
    ¬ lldbGet (ICIFetcher.translate (fun _ => .ok testResp) [] "test").cache
        (pyLower "test") = none ∧
    (ICIFetcher.translate (fun _ => .ok testResp)
        (ICIFetcher.translate (fun _ => .ok testResp) [] "test").cache "test").fetched
      = false :=
  ⟨fun h => Option.noConfusion h,
   (translate_second_call_cached (fun _ => .ok testResp) [] "test"
      (joinLines testRespLines) rfl (fun h => Option.noConfusion h)).2⟩

theorem toServerOffset_le (width : Char → Nat) (line : List Char) :
    ∀ u, toServerOffset width line u ≤ line.length := by
  induction line with
  | nil => intro u; cases u <;> exact Nat.le_refl 0
  | cons c cs ih =>
    intro u
    cases u with
    | zero => exact Nat.zero_le _
    | succ n =>
      simp only [toServerOffset]
      by_cases hw : n + 1 < width c
      · rw [if_pos hw]
        exact Nat.zero_le _
      · rw [if_neg hw]
        have := ih (n + 1 - width c)
        simp only [List.length_cons]
        omega

/-- C7 (amended): every completion list the handler returns is marked
non-incomplete and its edit range covers exactly the span from the prefix
start to the cursor, but expressed in server character offsets as the code
builds them — the range is not translated back to client units (unlike the
hover range, which goes through `range_to_client_units`).  (The original
claim — the range is expressed in the client's declared text-unit encoding —
is false when a character before the prefix is wider than one client unit,
see the counterexample.) -/
theorem completions_range_server_units (width : Char → Nat) (look : String → List String)
    (line : List Char) (clientCol : Nat) (r : CompletionListModel)
    (h : LookLS.completions width look line clientCol = some r) :
    r.isIncomplete = false ∧
    3 ≤ (trailingLetters (line.take (toServerOffset width line clientCol))).length ∧
    r.editStartChar
        + (trailingLetters (line.take (toServerOffset width line clientCol))).length
      = toServerOffset width line clientCol ∧
    r.editEndChar = toServerOffset width line clientCol ∧
    r.itemLabels
      = look (String.mk
          (trailingLetters (line.take (toServerOffset width line clientCol)))) := by
  have hlen : (line.take (toServerOffset width line clientCol)).length
      = toServerOffset width line clientCol := by
    rw [List.length_take]
    have := toServerOffset_le width line clientCol
    omega
  cases hemp : (line.take (toServerOffset width line clientCol)).isEmpty with
  | true =>
    have hnone : LookLS.completions width look line clientCol = none := by
      simp only [LookLS.completions, hemp]
      rfl
    rw [hnone] at h
    exact absurd h (fun hh => Option.noConfusion hh)
  | false =>
    by_cases hrun :
        3 ≤ (trailingLetters (line.take (toServerOffset width line clientCol))).length
    · have hse := searchEndHead_eq_some (line.take (toServerOffset width line clientCol)) hrun
      have hAc : LookLS.completions width look line clientCol
          = some ⟨false,
              (beforeRun (line.take (toServerOffset width line clientCol))).length,
              (line.take (toServerOffset width line clientCol)).length,
              look (String.mk
                (trailingLetters (line.take (toServerOffset width line clientCol))))⟩ := by
        simp only [LookLS.completions, hemp, hse]
        rfl
      rw [hAc] at h
      have hr := Option.some.inj h
      subst hr
      refine ⟨rfl, hrun, ?_, hlen, rfl⟩
      have hadd := beforeRun_length_add (line.take (toServerOffset width line clientCol))
      rw [hlen] at hadd
      exact hadd
    · have hse := searchEndHead_eq_none (line.take (toServerOffset width line clientCol))
        (by omega)
      have hnone : LookLS.completions width look line clientCol = none := by
        simp only [LookLS.completions, hemp, hse]
        rfl
      rw [hnone] at h
      exact absurd h (fun hh => Option.noConfusion hh)

/-- C7 counterexample: with the UTF-16 client encoding and a line starting
with a character outside the basic plane, the handler's edit range carries
the server character offsets 2..5, while the same span expressed in client
units is 3..6 — the code returns the untranslated server offsets. -/
theorem completions_range_units_counterexample :
    LookLS.completions utf16Width (fun _ => []) "𝄞 abc".data 6
      = some ⟨false, 2, 5, []⟩ ∧
    toClientOffset utf16Width "𝄞 abc".data 2 = 3 ∧
    toClientOffset utf16Width "𝄞 abc".data 5 = 6 := ⟨rfl, rfl, rfl⟩

/-- C7 witness: the amended theorem applied to the UTF-16 line "𝄞 abc" with
the cursor at client offset 6. -/
theorem completions_range_server_units_witness :
    (⟨false, 2, 5, ["abcs"]⟩ : CompletionListModel).isIncomplete = false ∧
    (⟨false, 2, 5, ["abcs"]⟩ : CompletionListModel).editEndChar
      = toServerOffset utf16Width "𝄞 abc".data 6 :=
  ⟨(completions_range_server_units utf16Width (fun p => [p ++ "s"]) "𝄞 abc".data 6
      ⟨false, 2, 5, ["abcs"]⟩ rfl).1,
   (completions_range_server_units utf16Width (fun p => [p ++ "s"]) "𝄞 abc".data 6
      ⟨false, 2, 5, ["abcs"]⟩ rfl).2.2.2.1⟩

/-- C8 (amended): the default system word list path is chosen only at
construction, when no dictionary file is configured (`dict_file or ...`);
at search time the tool is always invoked on the configured path.  A search
subprocess that runs and errors (for instance because the configured file is
absent) emits nothing, and its empty output yields an empty candidate
sequence; but a missing search tool makes the spawn itself raise, failing
the completion request.  (The original claim — an absent configured file
triggers a fallback search of the default path, and a missing tool yields an
empty sequence — is false, see the counterexample.) -/
theorem look_subprocess_behavior (spawn : List String → SpawnResult)
    (dictFile prefixArg out : String) :
    chooseDictFile none = "/usr/share/dict/words" ∧
    (spawn (lookCmd prefixArg dictFile) = .ran out →
      LookLS.look spawn dictFile prefixArg = .ok (splitlines out)) ∧
    (spawn (lookCmd prefixArg dictFile) = .noTool →
      LookLS.look spawn dictFile prefixArg = .error ()) := by
  refine ⟨rfl, ?_, ?_⟩ <;> intro h <;> simp only [LookLS.look, h]

/-- C8 counterexample: with the configured file "/cfg/20k.txt" absent, the
search yields the empty sequence instead of the candidates a search of the
default system word list would produce; and when the `look` tool itself is
missing, the search raises instead of yielding an empty sequence. -/
theorem look_absent_file_counterexample :
    LookLS.look spawnAbsentCfg "/cfg/20k.txt" "cat" = .ok [] ∧
    LookLS.look spawnAbsentCfg "/usr/share/dict/words" "cat" = .ok ["cat", "catalog"] ∧
    LookLS.look (fun _ => .noTool) "/cfg/20k.txt" "cat" = .error () := ⟨rfl, rfl, rfl⟩

/-- C8 witness: the amended theorem applied to a spawn whose tool runs but
errors, emitting no output. -/
theorem look_subprocess_behavior_witness :
    (fun _ => SpawnResult.ran "") (lookCmd "cat" "/x/words") = SpawnResult.ran "" ∧
    LookLS.look (fun _ => .ran "") "/x/words" "cat" = .ok [] :=
  ⟨rfl, (look_subprocess_behavior (fun _ => .ran "") "/x/words" "cat" "").2.1 rfl⟩

/-- C9: on the spec's mocked response for "test", `translate "test"` returns
the rendered text joining the expected display lines: the "### test"
heading, the phonetics line with both bracketed transcriptions, the bullet
for part "n." with meaning "a trial", the word-forms section listing the
plural, and the example pair as two quoted lines. -/
theorem translate_mock_test_renders :
    (ICIFetcher.translate (fun _ => .ok testResp) [] "test").output
      = .ok (some (joinLines testRespLines)) ∧
    "### test" ∈ testRespLines ∧
    "- US:\\[tɛst\\] UK:\\[test\\]" ∈ testRespLines ∧
    "\t- `n.`: a trial" ∈ testRespLines ∧
    "- 词态变化:" ∈ testRespLines ∧
    "\t- 复数: tests" ∈ testRespLines ∧
    "> This is a test." ∈ testRespLines ∧
    "> 这是一个测试。" ∈ testRespLines := by
  refine ⟨rfl, ?_, ?_, ?_, ?_, ?_, ?_, ?_⟩ <;> simp [testRespLines]
